import Mathlib

/-!
Verification of the support-agent-chatbot backend (`src/backend/app.py`).

Python strings are embedded as `List Char`.  Python's primitive string
operations (`str.split()`, `str.strip()`, `str.lower()`, `" ".join`,
`str.replace`, `str.startswith`, the `in` substring test, `str.split(sep)`)
are embedded as explicit Lean functions below, and the functions of the
application (`DocumentProcessor.clean_text`, `DocumentProcessor.extract_steps`,
`DocumentScraper.extract_content`, `DocumentScraper.get_page_content`,
`DocumentScraper.scrape_docs`, `format_search_response`, the `/query`
handler) are translated on top of them.  HTML parsing (BeautifulSoup) is an
external collaborator: a parsed page is embedded as a `Soup` record holding
exactly the query results the code asks the parser for.
-/

namespace SupportChatbot

/-- Embedding of Python's `str.lower()` (the code only lowercases ASCII
keywords, where `Char.toLower` agrees with Python). -/
def pyLower (s : List Char) : List Char := s.map Char.toLower

/-- Embedding of Python's `str.strip()`: drop whitespace from both ends. -/
def pyStrip (s : List Char) : List Char :=
  ((s.dropWhile Char.isWhitespace).reverse.dropWhile Char.isWhitespace).reverse

/-- Embedding of Python's `sep.join(pieces)`. -/
def pyJoinSep (sep : List Char) : List (List Char) → List Char
  | [] => []
  | [w] => w
  | w :: ws => w ++ sep ++ pyJoinSep sep ws

/-- Embedding of Python's `str.replace(a, b)` for single-character `a`, `b`. -/
def replaceChar (s : List Char) (a b : Char) : List Char :=
  s.map fun c => if c = a then b else c

/-- Accumulator-based scanner behind `pyWords`: `acc` holds the (reversed)
current run of non-whitespace characters. -/
def pyWordsAux : List Char → List Char → List (List Char)
  | acc, [] => if acc = [] then [] else [acc.reverse]
  | acc, c :: cs =>
    if c.isWhitespace then
      if acc = [] then pyWordsAux [] cs else acc.reverse :: pyWordsAux [] cs
    else pyWordsAux (c :: acc) cs

/-- Embedding of Python's argument-free `str.split()`: the maximal runs of
non-whitespace characters, in order. -/
def pyWords (s : List Char) : List (List Char) := pyWordsAux [] s

/-- Embedding of Python's `str.split(sep)` for a single-character separator:
keeps empty pieces, and the split of the empty string is `[[]]`. -/
def pySplitOn (sep : Char) : List Char → List (List Char)
  | [] => [[]]
  | c :: cs =>
    if c = sep then [] :: pySplitOn sep cs
    else
      match pySplitOn sep cs with
      | [] => [[c]]
      | r :: rs => (c :: r) :: rs

/-- Embedding of Python's substring test `needle in hay`. -/
def hasSub (needle : List Char) : List Char → Bool
  | [] => needle.isPrefixOf []
  | c :: t => needle.isPrefixOf (c :: t) || hasSub needle t

/-- Embedding of `DocumentProcessor.clean_text` (app.py lines 31-40):
`" ".join(text.split())` followed by replacing `"\n"` and `"\r"` by spaces. -/
def clean_text (text : List Char) : List Char :=
  if text = [] then []
  else
    replaceChar (replaceChar (pyJoinSep [' '] (pyWords text)) '\n' ' ') '\r' ' '

/-- Step-line markers from app.py line 49: the tuple passed to
`line.lower().startswith(...)`. -/
def stepStarts : List (List Char) :=
  ["step ".toList, "1.".toList, "2.".toList, "3.".toList]

/-- Test from app.py line 49 applied to an already-stripped line:
`line.lower().startswith(("step ", "1.", "2.", "3.")) and len(line) > 5`. -/
def isStepLine (line : List Char) : Bool :=
  stepStarts.any (fun p => p.isPrefixOf (pyLower line)) && decide (5 < line.length)

/-- Embedding of `DocumentProcessor.extract_steps` (app.py lines 42-51):
split on newlines, strip each line, keep the lines passing `isStepLine`. -/
def extract_steps (content : List Char) : List (List Char) :=
  ((pySplitOn '\n' content).map pyStrip).filter isStepLine

/-- Text region of a parsed page, as the extractor queries it:
`get_text()` results of the `h1`/`h2`/`h3` elements (in document order) and
of the `p`/`li`/`code` elements (in document order). -/
structure Region where
  headerTexts : List (List Char)
  elemTexts : List (List Char)
  deriving DecidableEq

/-- Parsed HTML page, embedded as the results of exactly the queries
`extract_content` and `scrape_docs` make against BeautifulSoup.  A `some`
value means the corresponding `find` located an element (bs4 returns the
element, which is truthy regardless of its text); `none` means `find`
returned `None`.  `anchors` holds the `href` attribute of each element of
`soup.select("nav a, .docs a, .documentation a, sidebar a, main a")`, in
order (`none` when the anchor has no href). -/
structure Soup where
  h1 : Option (List Char)
  titleTag : Option (List Char)
  pageTitleClass : Option (List Char)
  findMain : Option Region
  findArticle : Option Region
  findContentClass : Option Region
  findContentId : Option Region
  findDocClass : Option Region
  wholeRegion : Region
  anchors : List (Option (List Char))
  deriving DecidableEq

/-- Document record produced by `extract_content` (app.py lines 120-127). -/
structure Doc where
  url : List Char
  title : List Char
  content : List Char
  headers : List (List Char)
  steps : List (List Char)
  type : List Char
  deriving DecidableEq

/-- Main-content region selection (app.py lines 90-101): the first present
element among `main`, `article`, `class="content"`, `id="content"`,
`class="documentation"`, with the whole soup as the always-present fallback. -/
def selectMainContent (soup : Soup) : Region :=
  (([soup.findMain, soup.findArticle, soup.findContentClass, soup.findContentId,
      soup.findDocClass].findSome? id).getD soup.wholeRegion)

/-- Title candidate selection (app.py lines 80-88): the loop breaks at the
first candidate element that is present and takes its stripped text. -/
def selectTitle (soup : Soup) : Option (List Char) :=
  ([soup.h1, soup.titleTag, soup.pageTitleClass].findSome? id).map pyStrip

/-- Embedding of `DocumentScraper.extract_content` (app.py lines 77-127). -/
def extract_content (soup : Soup) (url : List Char) : Doc :=
  let title := selectTitle soup
  let mainContent := selectMainContent soup
  let headers := mainContent.headerTexts.map pyStrip
  let content := (mainContent.elemTexts.map pyStrip).filter (fun t => t ≠ [])
  let full_content := pyJoinSep [' '] content
  let clean_content := clean_text full_content
  let steps := extract_steps clean_content
  { url := url
    title :=
      match title with
      | some t => if t = [] then "Untitled Document".toList else t
      | none => "Untitled Document".toList
    content := clean_content
    headers := headers
    steps := steps
    type := if steps = [] then "documentation".toList else "guide".toList }

/-! ### Lemmas about the word scanner and `clean_text` -/

theorem pyWordsAux_wf (l : List Char) :
    ∀ acc, (∀ c ∈ acc, c.isWhitespace = false) →
      ∀ w ∈ pyWordsAux acc l, w ≠ [] ∧ ∀ c ∈ w, c.isWhitespace = false := by
  induction l with
  | nil =>
    intro acc hacc w hw
    simp only [pyWordsAux] at hw
    split at hw
    · simp at hw
    · next hne =>
      simp only [List.mem_singleton] at hw
      subst hw
      refine ⟨by simpa using hne, ?_⟩
      intro c hc
      exact hacc c (List.mem_reverse.mp hc)
  | cons c cs ih =>
    intro acc hacc w hw
    simp only [pyWordsAux] at hw
    by_cases hws : c.isWhitespace
    · rw [if_pos hws] at hw
      split at hw
      · exact ih [] (by simp) w hw
      · rcases List.mem_cons.mp hw with h | h
        · subst h
          next hne =>
          refine ⟨by simpa using hne, ?_⟩
          intro d hd
          exact hacc d (List.mem_reverse.mp hd)
        · exact ih [] (by simp) w h
    · rw [if_neg hws] at hw
      refine ih (c :: acc) ?_ w hw
      intro d hd
      rcases List.mem_cons.mp hd with h | h
      · subst h; simpa using hws
      · exact hacc d h

theorem pyWordsAux_word_sep (w : List Char) :
    ∀ acc rest, (∀ c ∈ w, c.isWhitespace = false) → (acc ≠ [] ∨ w ≠ []) →
      pyWordsAux acc (w ++ ' ' :: rest) = (acc.reverse ++ w) :: pyWordsAux [] rest := by
  induction w with
  | nil =>
    intro acc rest _ hne
    have hacc : acc ≠ [] := by
      rcases hne with h | h
      · exact h
      · exact absurd rfl h
    simp only [List.nil_append, pyWordsAux]
    rw [if_pos (by decide), if_neg hacc, List.append_nil]
  | cons c w ih =>
    intro acc rest hnws _
    have hc : c.isWhitespace = false := hnws c (List.mem_cons_self c w)
    have step : pyWordsAux acc (c :: (w ++ ' ' :: rest))
        = pyWordsAux (c :: acc) (w ++ ' ' :: rest) := by
      simp only [pyWordsAux, hc]
      simp
    calc pyWordsAux acc ((c :: w) ++ ' ' :: rest)
        = pyWordsAux (c :: acc) (w ++ ' ' :: rest) := step
      _ = ((c :: acc).reverse ++ w) :: pyWordsAux [] rest :=
          ih (c :: acc) rest (fun d hd => hnws d (List.mem_cons_of_mem c hd))
            (Or.inl (by simp))
      _ = (acc.reverse ++ c :: w) :: pyWordsAux [] rest := by simp

theorem pyWordsAux_word_last (w : List Char) :
    ∀ acc, (∀ c ∈ w, c.isWhitespace = false) → (acc ≠ [] ∨ w ≠ []) →
      pyWordsAux acc w = [acc.reverse ++ w] := by
  induction w with
  | nil =>
    intro acc _ hne
    have hacc : acc ≠ [] := by
      rcases hne with h | h
      · exact h
      · exact absurd rfl h
    simp [pyWordsAux, hacc]
  | cons c w ih =>
    intro acc hnws _
    have hc : c.isWhitespace = false := hnws c (List.mem_cons_self c w)
    simp only [pyWordsAux]
    rw [if_neg (by simp [hc])]
    rw [ih (c :: acc) (fun d hd => hnws d (List.mem_cons_of_mem c hd))
      (Or.inl (by simp))]
    simp

theorem pyWords_join (ws : List (List Char))
    (h : ∀ w ∈ ws, w ≠ [] ∧ ∀ c ∈ w, c.isWhitespace = false) :
    pyWords (pyJoinSep [' '] ws) = ws := by
  induction ws with
  | nil => rfl
  | cons w ws ih =>
    cases ws with
    | nil =>
      have hw := h w (List.mem_cons_self w [])
      show pyWordsAux [] w = [w]
      rw [pyWordsAux_word_last w [] hw.2 (Or.inr hw.1)]
      simp
    | cons v vs =>
      have hw := h w (List.mem_cons_self w (v :: vs))
      have hjoin : pyJoinSep [' '] (w :: v :: vs)
          = w ++ ' ' :: pyJoinSep [' '] (v :: vs) := by
        simp [pyJoinSep]
      show pyWords (pyJoinSep [' '] (w :: v :: vs)) = w :: v :: vs
      rw [hjoin]
      show pyWordsAux [] (w ++ ' ' :: pyJoinSep [' '] (v :: vs)) = w :: v :: vs
      rw [pyWordsAux_word_sep w [] (pyJoinSep [' '] (v :: vs)) hw.2 (Or.inr hw.1)]
      have := ih (fun u hu => h u (List.mem_cons_of_mem w hu))
      simp only [List.reverse_nil, List.nil_append]
      exact congrArg (w :: ·) this

theorem mem_pyJoinSep {c : Char} {sep : List Char} (ws : List (List Char))
    (h : c ∈ pyJoinSep sep ws) : c ∈ sep ∨ ∃ w ∈ ws, c ∈ w := by
  induction ws with
  | nil => simp [pyJoinSep] at h
  | cons w ws ih =>
    cases ws with
    | nil =>
      right
      exact ⟨w, List.mem_cons_self w [], by simpa [pyJoinSep] using h⟩
    | cons v vs =>
      simp only [pyJoinSep, List.append_assoc, List.mem_append] at h
      rcases h with h | h | h
      · exact Or.inr ⟨w, List.mem_cons_self w _, h⟩
      · exact Or.inl h
      · rcases ih h with h | ⟨u, hu, hc⟩
        · exact Or.inl h
        · exact Or.inr ⟨u, List.mem_cons_of_mem w hu, hc⟩

theorem replaceChar_of_not_mem {s : List Char} {a b : Char} (h : a ∉ s) :
    replaceChar s a b = s := by
  unfold replaceChar
  have heach : ∀ c ∈ s, (if c = a then b else c) = c := by
    intro c hc
    rw [if_neg]
    intro hca
    subst hca
    exact h hc
  rw [List.map_congr_left heach]
  exact List.map_id' s

theorem not_mem_replaceChar {s : List Char} {a b : Char} (h : a ≠ b) :
    a ∉ replaceChar s a b := by
  intro hmem
  rcases List.mem_map.mp hmem with ⟨c, _, hc⟩
  by_cases hca : c = a
  · rw [if_pos hca] at hc; exact h hc.symm
  · rw [if_neg hca] at hc; exact hca hc

theorem not_mem_replaceChar_of_not_mem {s : List Char} {a b d : Char}
    (hd : d ∉ s) (hdb : d ≠ b) : d ∉ replaceChar s a b := by
  intro hmem
  rcases List.mem_map.mp hmem with ⟨c, hc, hce⟩
  by_cases hca : c = a
  · rw [if_pos hca] at hce
    exact hdb hce.symm
  · rw [if_neg hca] at hce
    subst hce
    exact hd hc

theorem not_ws_mem_join_pyWords {c : Char} {t : List Char}
    (h : c ∈ pyJoinSep [' '] (pyWords t)) : c.isWhitespace = false ∨ c = ' ' := by
  rcases mem_pyJoinSep (pyWords t) h with h | ⟨w, hw, hc⟩
  · right; simpa using h
  · left; exact (pyWordsAux_wf t [] (by simp) w hw).2 c hc

theorem clean_text_eq_join_words (t : List Char) :
    clean_text t = pyJoinSep [' '] (pyWords t) := by
  by_cases ht : t = []
  · subst ht; rfl
  · unfold clean_text
    rw [if_neg ht]
    have hn : '\n' ∉ pyJoinSep [' '] (pyWords t) := by
      intro h
      rcases not_ws_mem_join_pyWords h with h | h
      · simp at h
      · exact absurd h (by decide)
    rw [replaceChar_of_not_mem hn]
    have hr : '\r' ∉ pyJoinSep [' '] (pyWords t) := by
      intro h
      rcases not_ws_mem_join_pyWords h with h | h
      · simp at h
      · exact absurd h (by decide)
    rw [replaceChar_of_not_mem hr]

/-- C9 — `clean_text` is idempotent and its output contains no newline and no
carriage return. -/
theorem clean_text_idempotent_no_newline (s : List Char) :
    clean_text (clean_text s) = clean_text s ∧
      '\n' ∉ clean_text s ∧ '\r' ∉ clean_text s := by
  have hjoin := clean_text_eq_join_words s
  have hno : ∀ c ∈ clean_text s, c.isWhitespace = false ∨ c = ' ' := by
    intro c hc
    rw [hjoin] at hc
    exact not_ws_mem_join_pyWords hc
  refine ⟨?_, ?_, ?_⟩
  · rw [clean_text_eq_join_words (clean_text s), hjoin]
    rw [pyWords_join (pyWords s) (pyWordsAux_wf s [] (by simp))]
  · intro h
    rcases hno '\n' h with h' | h'
    · simp at h'
    · exact absurd h' (by decide)
  · intro h
    rcases hno '\r' h with h' | h'
    · simp at h'
    · exact absurd h' (by decide)

/-! ### Single-line structure of step extraction on cleaned content -/

theorem pySplitOn_of_not_mem {sep : Char} {l : List Char} (h : sep ∉ l) :
    pySplitOn sep l = [l] := by
  induction l with
  | nil => rfl
  | cons c cs ih =>
    have hc : c ≠ sep := fun he => h (he ▸ List.mem_cons_self c cs)
    have hcs : sep ∉ cs := fun hm => h (List.mem_cons_of_mem c hm)
    simp only [pySplitOn]
    rw [if_neg hc, ih hcs]

theorem joinWords_head (w : List Char) (ws : List (List Char))
    (h : ∀ u ∈ w :: ws, u ≠ [] ∧ ∀ c ∈ u, c.isWhitespace = false) :
    ∃ c t, pyJoinSep [' '] (w :: ws) = c :: t ∧ c.isWhitespace = false := by
  have hw := h w (List.mem_cons_self w ws)
  rcases List.exists_cons_of_ne_nil hw.1 with ⟨c, w0, hw0⟩
  cases ws with
  | nil =>
    exact ⟨c, w0, by simp [pyJoinSep, hw0], hw.2 c (by simp [hw0])⟩
  | cons v vs =>
    refine ⟨c, w0 ++ ' ' :: pyJoinSep [' '] (v :: vs), ?_, hw.2 c (by simp [hw0])⟩
    subst hw0
    simp [pyJoinSep]

theorem joinWords_last (ws : List (List Char)) :
    ∀ w, (∀ u ∈ w :: ws, u ≠ [] ∧ ∀ c ∈ u, c.isWhitespace = false) →
      ∃ c t, (pyJoinSep [' '] (w :: ws)).reverse = c :: t ∧ c.isWhitespace = false := by
  induction ws with
  | nil =>
    intro w h
    have hw := h w (List.mem_cons_self w [])
    have hrev : w.reverse ≠ [] := by
      simpa using hw.1
    rcases List.exists_cons_of_ne_nil hrev with ⟨c, t, ht⟩
    have hcw : c ∈ w := List.mem_reverse.mp (ht ▸ List.mem_cons_self c t)
    exact ⟨c, t, by simpa [pyJoinSep] using ht, hw.2 c hcw⟩
  | cons v vs ih =>
    intro w h
    obtain ⟨c, t, hrev, hc⟩ := ih v (fun u hu => h u (List.mem_cons_of_mem w hu))
    refine ⟨c, t ++ ' ' :: w.reverse, ?_, hc⟩
    have hjoin : pyJoinSep [' '] (w :: v :: vs)
        = w ++ ' ' :: pyJoinSep [' '] (v :: vs) := by
      simp [pyJoinSep]
    rw [hjoin]
    simp [hrev]

theorem pyStrip_clean_text (t : List Char) :
    pyStrip (clean_text t) = clean_text t := by
  rw [clean_text_eq_join_words]
  have hwf : ∀ u ∈ pyWords t, u ≠ [] ∧ ∀ c ∈ u, c.isWhitespace = false :=
    pyWordsAux_wf t [] (by simp)
  cases hws : pyWords t with
  | nil => simp [pyStrip, pyJoinSep]
  | cons w ws =>
    rw [hws] at hwf
    obtain ⟨c, tl, hj, hc⟩ := joinWords_head w ws hwf
    obtain ⟨d, tr, hjr, hd⟩ := joinWords_last ws w hwf
    unfold pyStrip
    rw [hj, List.dropWhile_cons, if_neg (by simp [hc]), ← hj]
    rw [hjr, List.dropWhile_cons, if_neg (by simp [hd]), ← hjr,
      List.reverse_reverse]

theorem extract_steps_single_line {C : List Char} (hn : '\n' ∉ C)
    (hstrip : pyStrip C = C) :
    extract_steps C = if isStepLine C = true then [C] else [] := by
  unfold extract_steps
  rw [pySplitOn_of_not_mem hn]
  by_cases h : isStepLine C = true
  · simp [List.filter_cons, hstrip, h]
  · simp [List.filter_cons, hstrip, h]

theorem extract_content_content_clean (soup : Soup) (url : List Char) :
    (extract_content soup url).content
      = clean_text (pyJoinSep [' ']
          (((selectMainContent soup).elemTexts.map pyStrip).filter
            (fun t => t ≠ []))) := rfl

theorem extract_content_steps_eq (soup : Soup) (url : List Char) :
    (extract_content soup url).steps
      = extract_steps (extract_content soup url).content := rfl

theorem extract_content_type_eq (soup : Soup) (url : List Char) :
    (extract_content soup url).type
      = (if (extract_content soup url).steps = []
          then "documentation".toList else "guide".toList) := rfl

theorem extract_content_steps_if (soup : Soup) (url : List Char) :
    (extract_content soup url).steps
      = (if isStepLine (extract_content soup url).content = true
          then [(extract_content soup url).content] else []) := by
  have hn : '\n' ∉ (extract_content soup url).content := by
    rw [extract_content_content_clean]
    exact (clean_text_idempotent_no_newline _).2.1
  have hstrip : pyStrip (extract_content soup url).content
      = (extract_content soup url).content := by
    rw [extract_content_content_clean]
    exact pyStrip_clean_text _
  rw [extract_content_steps_eq, extract_steps_single_line hn hstrip]

/-- C10 — for every parsed page, the `steps` list of the document returned by
`extract_content` has at most one element: step extraction runs on the
already whitespace-normalized content, which contains no newline, so the
newline split yields the single line equal to the content itself. -/
theorem extract_content_steps_at_most_one (soup : Soup) (url : List Char) :
    (extract_content soup url).steps.length ≤ 1 ∧
      ((extract_content soup url).steps = [] ∨
        (extract_content soup url).steps = [(extract_content soup url).content]) := by
  rw [extract_content_steps_if]
  by_cases h : isStepLine (extract_content soup url).content = true
  · rw [if_pos h]
    exact ⟨by simp, Or.inr rfl⟩
  · rw [if_neg h]
    exact ⟨by simp, Or.inl rfl⟩

/-- C1 — if the extractable content of a page has a line that qualifies as a
step (after trimming it case-insensitively starts with "step ", "1.", "2.",
or "3." and its trimmed length exceeds 5), `extract_content` classifies the
document as a `guide` and the line is kept in `steps`; with no qualifying
line it classifies the document as `documentation` with empty `steps`. -/
theorem extract_content_guide_classification (soup : Soup) (url : List Char) :
    ((∃ l ∈ pySplitOn '\n' (extract_content soup url).content,
        isStepLine (pyStrip l) = true) →
      (extract_content soup url).type = "guide".toList ∧
        ∀ l ∈ pySplitOn '\n' (extract_content soup url).content,
          isStepLine (pyStrip l) = true → l ∈ (extract_content soup url).steps) ∧
    ((∀ l ∈ pySplitOn '\n' (extract_content soup url).content,
        isStepLine (pyStrip l) = false) →
      (extract_content soup url).type = "documentation".toList ∧
        (extract_content soup url).steps = []) := by
  have hn : '\n' ∉ (extract_content soup url).content := by
    rw [extract_content_content_clean]
    exact (clean_text_idempotent_no_newline _).2.1
  have hstrip : pyStrip (extract_content soup url).content
      = (extract_content soup url).content := by
    rw [extract_content_content_clean]
    exact pyStrip_clean_text _
  have hlines : pySplitOn '\n' (extract_content soup url).content
      = [(extract_content soup url).content] := pySplitOn_of_not_mem hn
  constructor
  · rintro ⟨l, hl, hq⟩
    rw [hlines, List.mem_singleton] at hl
    subst hl
    rw [hstrip] at hq
    have hsteps : (extract_content soup url).steps
        = [(extract_content soup url).content] := by
      rw [extract_content_steps_if, if_pos hq]
    refine ⟨?_, ?_⟩
    · rw [extract_content_type_eq, hsteps]
      simp
    · intro l hl _
      rw [hlines, List.mem_singleton] at hl
      subst hl
      rw [hsteps]
      exact List.mem_singleton.mpr rfl
  · intro hall
    have hq : isStepLine (extract_content soup url).content = false := by
      have := hall (extract_content soup url).content
        (by rw [hlines]; exact List.mem_singleton.mpr rfl)
      rwa [hstrip] at this
    have hsteps : (extract_content soup url).steps = [] := by
      rw [extract_content_steps_if, if_neg (by simp [hq])]
    exact ⟨by rw [extract_content_type_eq, hsteps]; simp, hsteps⟩

/-- Concrete page whose only extractable text is one qualifying step line. -/
def soupStepPage : Soup :=
  { h1 := none, titleTag := none, pageTitleClass := none,
    findMain := none, findArticle := none, findContentClass := none,
    findContentId := none, findDocClass := none,
    wholeRegion :=
      { headerTexts := [], elemTexts := ["Step 1: install the SDK".toList] },
    anchors := [] }

/-- C1 witness: on `soupStepPage` the classification theorem yields type
`guide` with the qualifying line kept in `steps`. -/
theorem extract_content_guide_classification_witness :
    (extract_content soupStepPage "u".toList).type = "guide".toList ∧
      "Step 1: install the SDK".toList
        ∈ (extract_content soupStepPage "u".toList).steps := by
  have h := (extract_content_guide_classification soupStepPage "u".toList).1
    ⟨"Step 1: install the SDK".toList, by decide, by decide⟩
  exact ⟨h.1, h.2 "Step 1: install the SDK".toList (by decide) (by decide)⟩

/-! ### Title selection (C4) -/

/-- Modelled from the amended claim: the title is the trimmed text of the
first PRESENT candidate (first h1, then the document title element, then a
page-title-class element); when no candidate is present, or the first
present candidate's text is empty after trimming, the title is the
placeholder "Untitled Document". -/
def amendedTitleChoice (soup : Soup) : List Char :=
  match [soup.h1, soup.titleTag, soup.pageTitleClass].findSome? id with
  | none => "Untitled Document".toList
  | some t => if pyStrip t = [] then "Untitled Document".toList else pyStrip t

/-- C4 (amended) — the title produced by `extract_content` is the trimmed
text of the first present candidate, with the placeholder used when no
candidate is present or the chosen candidate trims to empty; the returned
title is never the empty string. -/
theorem extract_content_title_selection (soup : Soup) (url : List Char) :
    (extract_content soup url).title = amendedTitleChoice soup ∧
      (extract_content soup url).title ≠ [] := by
  have htitle : (extract_content soup url).title
      = (match selectTitle soup with
         | some t => if t = [] then "Untitled Document".toList else t
         | none => "Untitled Document".toList) := rfl
  rw [htitle]
  unfold amendedTitleChoice
  unfold selectTitle
  cases h : [soup.h1, soup.titleTag, soup.pageTitleClass].findSome? id with
  | none =>
    exact ⟨rfl, by decide⟩
  | some t =>
    refine ⟨rfl, ?_⟩
    show (if pyStrip t = [] then "Untitled Document".toList else pyStrip t) ≠ []
    by_cases ht : pyStrip t = []
    · rw [if_pos ht]
      decide
    · rw [if_neg ht]
      exact ht

/-- Page whose first h1 is present but trims to empty text while the
document title element has the non-empty text "Real Title". -/
def soupEmptyH1 : Soup :=
  { h1 := some "  ".toList, titleTag := some "Real Title".toList,
    pageTitleClass := none,
    findMain := none, findArticle := none, findContentClass := none,
    findContentId := none, findDocClass := none,
    wholeRegion := { headerTexts := [], elemTexts := [] },
    anchors := [] }

/-- C4 counterexample: under the claim the first candidate with non-empty
text (the document title element, "Real Title") should win, but the code
breaks at the present-but-empty h1 and falls back to the placeholder. -/
theorem extract_content_title_counterexample :
    soupEmptyH1.h1 = some "  ".toList ∧
      soupEmptyH1.titleTag = some "Real Title".toList ∧
      pyStrip "Real Title".toList ≠ [] ∧
      (extract_content soupEmptyH1 "u".toList).title = "Untitled Document".toList ∧
      (extract_content soupEmptyH1 "u".toList).title ≠ pyStrip "Real Title".toList := by
  decide

/-! ### Result formatting (`format_search_response`, app.py lines 330-379) -/

/-- How-to keyword list shared by `search_documents` (app.py line 242) and
`format_search_response` (app.py line 341). -/
def howToTerms : List (List Char) :=
  ["how".toList, "how to".toList, "how do i".toList]

/-- Test `any(term in query.lower() for term in ["how", "how to", "how do i"])`. -/
def isHowTo (query : List Char) : Bool :=
  howToTerms.any (fun t => hasSub t (pyLower query))

/-- Source fields of one Elasticsearch hit (`hit["_source"]`): fields read
through `.get` may be absent, fields read by direct indexing are required. -/
structure HitSource where
  title : Option (List Char)
  content : List Char
  headers : Option (List (List Char))
  steps : Option (List (List Char))
  type : Option (List Char)
  url : List Char
  deriving DecidableEq

/-- One search hit: source document, `_score`, and the `highlight` entry for
`content` when present (scores are embedded as rationals; the code only
compares and copies them). -/
structure Hit where
  source : HitSource
  score : ℚ
  highlightContent : Option (List (List Char))
  deriving DecidableEq

/-- Response object built by `format_search_response`. -/
structure FormattedAnswer where
  title : List Char
  snippetText : List Char
  snippetType : List Char
  steps : List (List Char)
  link : List Char
  score : ℚ
  relevance : List Char
  documentType : List Char
  metaHeaders : List (List Char)
  suggestions : List (List Char)
  deriving DecidableEq

/-- Embedding of Python's `str.capitalize()`: first character uppercased,
the rest lowercased. -/
def pyCapitalize : List Char → List Char
  | [] => []
  | c :: cs => c.toUpper :: cs.map Char.toLower

/-- Embedding of `format_search_response` (app.py lines 330-379). -/
def format_search_response (hit : Hit) (query : List Char) : FormattedAnswer :=
  let source := hit.source
  let content_preview :=
    match hit.highlightContent with
    | some frags => pyJoinSep " ... ".toList frags
    | none => source.content.take 300
  let is_how_to := isHowTo query
  let response_type :=
    if is_how_to = true ∨ source.type = some "guide".toList then "guide".toList
    else "documentation".toList
  let relevance := if hit.score > 1 then "High".toList else "Medium".toList
  let suggestions :=
    if response_type = "guide".toList then
      ["View step-by-step guide".toList, "See related examples".toList,
        "Check prerequisites".toList]
    else
      ["Read full documentation".toList, "View related topics".toList,
        "Check API reference".toList]
  let steps := source.steps.getD []
  let formatted_steps :=
    if steps ≠ [] ∧ is_how_to = true then
      steps.enum.map (fun p => (Nat.repr (p.1 + 1)).toList ++ ". ".toList ++ p.2)
    else []
  { title := source.title.getD "Relevant Documentation".toList
    snippetText := content_preview
    snippetType := response_type
    steps := formatted_steps
    link := source.url
    score := hit.score
    relevance := relevance
    documentType := pyCapitalize response_type
    metaHeaders := (source.headers.getD []).take 3
    suggestions := suggestions }

/-- C8 — the relevance tier is "High" exactly when the hit's score exceeds
1.0 and "Medium" exactly when it is at most 1.0 (including exactly 1.0);
no other tier value ever occurs. -/
theorem format_relevance_tiers (hit : Hit) (query : List Char) :
    ((format_search_response hit query).relevance = "High".toList ↔ hit.score > 1) ∧
    ((format_search_response hit query).relevance = "Medium".toList ↔ hit.score ≤ 1) ∧
    ((format_search_response hit query).relevance = "High".toList ∨
      (format_search_response hit query).relevance = "Medium".toList) := by
  have hrel : (format_search_response hit query).relevance
      = (if hit.score > 1 then "High".toList else "Medium".toList) := rfl
  rw [hrel]
  by_cases h : hit.score > 1
  · rw [if_pos h]
    refine ⟨⟨fun _ => h, fun _ => rfl⟩, ⟨?_, ?_⟩, Or.inl rfl⟩
    · intro he
      exact absurd he (by decide)
    · intro hle
      exact absurd h (not_lt.mpr hle)
  · rw [if_neg h]
    refine ⟨⟨?_, fun hgt => absurd hgt h⟩, ⟨fun _ => not_lt.mp h, fun _ => rfl⟩,
      Or.inr rfl⟩
    intro he
    exact absurd he (by decide)

/-- Search hit used to instantiate the formatter theorems. -/
def hitHighScore : Hit :=
  { source :=
      { title := some "Guide".toList, content := "some indexed content".toList,
        headers := some [], steps := some ["install the sdk".toList,
          "run the setup".toList],
        type := some "guide".toList, url := "http://a/b".toList },
    score := 2, highlightContent := none }

/-- C8 witness: a hit with score 2 gets tier "High". -/
theorem format_relevance_tiers_witness :
    (format_search_response hitHighScore "what is X".toList).relevance
      = "High".toList :=
  (format_relevance_tiers hitHighScore "what is X".toList).1.mpr (by decide)

/-- Modelled from the spec: renumber the stored steps 1..N, each entry being
the step number followed by ". " and the stored step text. -/
def renumberSteps (steps : List (List Char)) : List (List Char) :=
  ((List.range steps.length).zip steps).map
    (fun p => (Nat.repr (p.1 + 1)).toList ++ ". ".toList ++ p.2)

/-- C6 — the formatted answer's steps are non-empty only when the document
has stored steps AND the query carries how-to intent, in which case they are
exactly the stored steps renumbered 1..N in the "{n}. {step}" shape; in
every other case they are empty. -/
theorem format_steps_gating (hit : Hit) (query : List Char) :
    ((format_search_response hit query).steps ≠ [] →
      hit.source.steps.getD [] ≠ [] ∧ isHowTo query = true) ∧
    (hit.source.steps.getD [] ≠ [] → isHowTo query = true →
      (format_search_response hit query).steps
        = renumberSteps (hit.source.steps.getD [])) ∧
    (¬(hit.source.steps.getD [] ≠ [] ∧ isHowTo query = true) →
      (format_search_response hit query).steps = []) := by
  have hsteps : (format_search_response hit query).steps
      = (if hit.source.steps.getD [] ≠ [] ∧ isHowTo query = true then
          (hit.source.steps.getD []).enum.map
            (fun p => (Nat.repr (p.1 + 1)).toList ++ ". ".toList ++ p.2)
         else []) := rfl
  have henum : ((hit.source.steps.getD []).enum.map
        (fun p => (Nat.repr (p.1 + 1)).toList ++ ". ".toList ++ p.2))
      = renumberSteps (hit.source.steps.getD []) := by
    rw [renumberSteps, List.enum_eq_zip_range]
  rw [hsteps]
  by_cases h : hit.source.steps.getD [] ≠ [] ∧ isHowTo query = true
  · rw [if_pos h]
    exact ⟨fun _ => h, fun _ _ => henum, fun hc => absurd h hc⟩
  · rw [if_neg h]
    exact ⟨fun hne => absurd rfl hne, fun h1 h2 => absurd ⟨h1, h2⟩ h, fun _ => rfl⟩

/-- C6 witness: a document with two stored steps and a how-to query yields
the two renumbered steps; evaluating the renumbering gives the literal
strings "1. install the sdk" and "2. run the setup". -/
theorem format_steps_gating_witness :
    (format_search_response hitHighScore "how to configure X".toList).steps
      = ["1. install the sdk".toList, "2. run the setup".toList] := by
  have h := (format_steps_gating hitHighScore "how to configure X".toList).2.1
    (by decide) (by decide)
  rw [h]
  decide

/-- C9 witness: evaluation of idempotence at a concrete string. -/
theorem clean_text_idempotent_witness :
    clean_text (clean_text "  a\n b\r\n  ".toList) = clean_text "  a\n b\r\n  ".toList :=
  (clean_text_idempotent_no_newline "  a\n b\r\n  ".toList).1

/-! ### Fetcher (`get_page_content`, app.py lines 64-75) -/

/-- Observable events of one `get_page_content` run: an HTTP GET attempt
with its index, the error log line for a failed attempt, and a sleep of the
configured delay. -/
inductive FetchEvent where
  | attempt (n : ℕ)
  | logError (n : ℕ)
  | sleep
  deriving DecidableEq

/-- Loop of `get_page_content`: `a` is the current index in
`range(max_retries)` and `r` the number of indices still to visit; `fetch a`
is the outcome of the GET on attempt `a` (`none` covers any exception,
including `raise_for_status`).  A success returns the content immediately; a
failure logs, then sleeps exactly when `a + 1 < maxRetries`. -/
def getPageContentAux (fetch : ℕ → Option (List Char)) (maxRetries : ℕ) :
    ℕ → ℕ → Option (List Char) × List FetchEvent
  | _, 0 => (none, [])
  | a, r + 1 =>
    match fetch a with
    | some content => (some content, [FetchEvent.attempt a])
    | none =>
      ((getPageContentAux fetch maxRetries (a + 1) r).1,
        FetchEvent.attempt a :: FetchEvent.logError a ::
          (if a + 1 < maxRetries then
            FetchEvent.sleep :: (getPageContentAux fetch maxRetries (a + 1) r).2
          else (getPageContentAux fetch maxRetries (a + 1) r).2))

/-- Embedding of `DocumentScraper.get_page_content`: run the attempt loop
over `range(max_retries)` and fall through to `None`. -/
def get_page_content (fetch : ℕ → Option (List Char)) (maxRetries : ℕ) :
    Option (List Char) × List FetchEvent :=
  getPageContentAux fetch maxRetries 0 maxRetries

def isAttemptEvent : FetchEvent → Bool
  | FetchEvent.attempt _ => true
  | _ => false

/-- Modelled from the spec: trace of a run in which every attempt fails —
each failed attempt is logged and followed by a sleep except after the
final attempt. -/
def allFailTrace (maxRetries : ℕ) : List FetchEvent :=
  (List.range maxRetries).flatMap
    (fun i => FetchEvent.attempt i :: FetchEvent.logError i ::
      (if i + 1 < maxRetries then [FetchEvent.sleep] else []))

/-- Modelled from the spec: trace of a run whose first success is attempt
`k < maxRetries` — each of the `k` failed attempts is logged and slept
after, and the run stops at the successful attempt. -/
def successTrace (k : ℕ) : List FetchEvent :=
  ((List.range k).flatMap
    (fun i => [FetchEvent.attempt i, FetchEvent.logError i, FetchEvent.sleep]))
    ++ [FetchEvent.attempt k]

theorem getPageContentAux_attempts_le (fetch : ℕ → Option (List Char))
    (maxRetries : ℕ) :
    ∀ r a, (getPageContentAux fetch maxRetries a r).2.countP isAttemptEvent ≤ r := by
  intro r
  induction r with
  | zero =>
    intro a
    simp [getPageContentAux]
  | succ r ih =>
    intro a
    simp only [getPageContentAux]
    cases h : fetch a with
    | some c =>
      simp [List.countP_cons, isAttemptEvent]
    | none =>
      have hr := ih (a + 1)
      by_cases hlt : a + 1 < maxRetries
      · rw [if_pos hlt]
        simp [List.countP_cons, isAttemptEvent]
        omega
      · rw [if_neg hlt]
        simp [List.countP_cons, isAttemptEvent]
        omega

theorem getPageContentAux_all_fail (fetch : ℕ → Option (List Char))
    (maxRetries : ℕ) :
    ∀ r a, a + r = maxRetries → (∀ i, a ≤ i → i < maxRetries → fetch i = none) →
      getPageContentAux fetch maxRetries a r
        = (none, (List.range' a r).flatMap
            (fun i => FetchEvent.attempt i :: FetchEvent.logError i ::
              (if i + 1 < maxRetries then [FetchEvent.sleep] else []))) := by
  intro r
  induction r with
  | zero =>
    intro a _ _
    simp [getPageContentAux]
  | succ r ih =>
    intro a hsum hfail
    have ha : fetch a = none := hfail a (Nat.le_refl a) (by omega)
    simp only [getPageContentAux, ha]
    rw [ih (a + 1) (by omega) (fun i hi hm => hfail i (by omega) hm)]
    rw [List.range'_succ, List.flatMap_cons]
    by_cases hlt : a + 1 < maxRetries
    · rw [if_pos hlt, if_pos hlt]
      simp
    · rw [if_neg hlt, if_neg hlt]
      simp

theorem getPageContentAux_success (fetch : ℕ → Option (List Char))
    (maxRetries : ℕ) :
    ∀ r a k c, a + r = maxRetries → a ≤ k → k < maxRetries → fetch k = some c →
      (∀ i, a ≤ i → i < k → fetch i = none) →
      getPageContentAux fetch maxRetries a r
        = (some c, ((List.range' a (k - a)).flatMap
            (fun i => [FetchEvent.attempt i, FetchEvent.logError i,
              FetchEvent.sleep])) ++ [FetchEvent.attempt k]) := by
  intro r
  induction r with
  | zero =>
    intro a k c hsum hak hk _ _
    omega
  | succ r ih =>
    intro a k c hsum hak hk hkc hfail
    by_cases hae : a = k
    · subst hae
      simp only [getPageContentAux, hkc]
      rw [Nat.sub_self]
      simp
    · have halt : a < k := lt_of_le_of_ne hak hae
      have ha : fetch a = none := hfail a (Nat.le_refl a) halt
      simp only [getPageContentAux, ha]
      rw [ih (a + 1) k c (by omega) (by omega) hk hkc
        (fun i hi him => hfail i (by omega) him)]
      have hlt : a + 1 < maxRetries := by omega
      rw [if_pos hlt]
      have hstep : k - a = (k - (a + 1)) + 1 := by omega
      rw [hstep, List.range'_succ, List.flatMap_cons]
      simp

/-- C5 — `get_page_content` performs at most `maxRetries` attempts; every
failed attempt is logged and followed by a sleep of the configured delay
except after the final attempt; when every attempt fails it returns `none`
rather than raising. -/
theorem get_page_content_retry_contract (fetch : ℕ → Option (List Char))
    (maxRetries : ℕ) :
    ((get_page_content fetch maxRetries).2.countP isAttemptEvent ≤ maxRetries) ∧
    ((∀ i, i < maxRetries → fetch i = none) →
      get_page_content fetch maxRetries = (none, allFailTrace maxRetries)) ∧
    (∀ k c, k < maxRetries → fetch k = some c →
      (∀ i, i < k → fetch i = none) →
      get_page_content fetch maxRetries = (some c, successTrace k)) := by
  refine ⟨getPageContentAux_attempts_le fetch maxRetries maxRetries 0, ?_, ?_⟩
  · intro hfail
    unfold get_page_content allFailTrace
    rw [getPageContentAux_all_fail fetch maxRetries maxRetries 0 (by omega)
      (fun i _ hm => hfail i hm)]
    rw [List.range_eq_range']
  · intro k c hk hkc hfail
    unfold get_page_content successTrace
    rw [getPageContentAux_success fetch maxRetries maxRetries 0 k c (by omega)
      (Nat.zero_le k) hk hkc (fun i _ him => hfail i him)]
    rw [List.range_eq_range', Nat.sub_zero]

/-- C5 witness: with three attempts that all fail, the run returns `none`
with the spec trace (two sleeps, none after the final attempt). -/
theorem get_page_content_retry_contract_witness :
    get_page_content (fun _ => none) 3 = (none, allFailTrace 3) :=
  (get_page_content_retry_contract (fun _ => none) 3).2.1 (fun _ _ => rfl)

/-! ### Link discovery (app.py lines 143-154) -/

/-- Skip list from app.py line 149: hrefs starting with one of these are
never followed. -/
def bannedStarts : List (List Char) :=
  ["#".toList, "javascript:".toList, "mailto:".toList, "tel:".toList]

/-- Embedding of Python's `str.rstrip("/")`. -/
def dropEndSlashes (s : List Char) : List Char :=
  (s.reverse.dropWhile (fun c => c = '/')).reverse

/-- Href resolution from app.py lines 151-152: an href not starting with
"http" is joined to the base URL (`base_url.rstrip("/") + "/" +
href.lstrip("/")`). -/
def resolveHref (baseUrl href : List Char) : List Char :=
  if "http".toList.isPrefixOf href then href
  else dropEndSlashes baseUrl ++ '/' :: href.dropWhile (fun c => c = '/')

/-- Link-collection loop of `scrape_docs` (app.py lines 143-154): `acc`
models the `doc_links` set as an insertion-ordered duplicate-free list
(Python set iteration order is implementation-defined; none of the proved
properties depend on the order chosen here). -/
def discoverLinksAux (baseUrl : List Char) :
    List (Option (List Char)) → List (List Char) → List (List Char)
  | [], acc => acc
  | none :: rest, acc => discoverLinksAux baseUrl rest acc
  | some href :: rest, acc =>
    if href = [] then discoverLinksAux baseUrl rest acc
    else if bannedStarts.any (fun b => b.isPrefixOf href) then
      discoverLinksAux baseUrl rest acc
    else
      if baseUrl.isPrefixOf (resolveHref baseUrl href) then
        if resolveHref baseUrl href ∈ acc then discoverLinksAux baseUrl rest acc
        else discoverLinksAux baseUrl rest (acc ++ [resolveHref baseUrl href])
      else discoverLinksAux baseUrl rest acc

/-- Discovered link set of a seed page. -/
def discoverLinks (baseUrl : List Char) (anchors : List (Option (List Char))) :
    List (List Char) :=
  discoverLinksAux baseUrl anchors []

theorem discoverLinksAux_spec (baseUrl : List Char) :
    ∀ (anchors : List (Option (List Char))) (acc : List (List Char)),
      acc.Nodup →
      (discoverLinksAux baseUrl anchors acc).Nodup ∧
      ∀ u ∈ discoverLinksAux baseUrl anchors acc,
        u ∈ acc ∨
          (baseUrl.isPrefixOf u = true ∧
            ∃ href, some href ∈ anchors ∧ href ≠ [] ∧
              bannedStarts.any (fun b => b.isPrefixOf href) = false ∧
              u = resolveHref baseUrl href) := by
  intro anchors
  induction anchors with
  | nil =>
    intro acc hacc
    exact ⟨hacc, fun u hu => Or.inl hu⟩
  | cons a rest ih =>
    intro acc hacc
    cases a with
    | none =>
      obtain ⟨hnd, hmem⟩ := ih acc hacc
      refine ⟨hnd, fun u hu => ?_⟩
      rcases hmem u hu with h | ⟨hp, href, hh, h1, h2, h3⟩
      · exact Or.inl h
      · exact Or.inr ⟨hp, href, List.mem_cons_of_mem _ hh, h1, h2, h3⟩
    | some href =>
      by_cases hemp : href = []
      · simp only [discoverLinksAux, if_pos hemp]
        obtain ⟨hnd, hmem⟩ := ih acc hacc
        refine ⟨hnd, fun u hu => ?_⟩
        rcases hmem u hu with h | ⟨hp, h2, hh2, rest'⟩
        · exact Or.inl h
        · exact Or.inr ⟨hp, h2, List.mem_cons_of_mem _ hh2, rest'⟩
      · by_cases hban : bannedStarts.any (fun b => b.isPrefixOf href) = true
        · simp only [discoverLinksAux, if_neg hemp, if_pos hban]
          obtain ⟨hnd, hmem⟩ := ih acc hacc
          refine ⟨hnd, fun u hu => ?_⟩
          rcases hmem u hu with h | ⟨hp, h2, hh2, rest'⟩
          · exact Or.inl h
          · exact Or.inr ⟨hp, h2, List.mem_cons_of_mem _ hh2, rest'⟩
        · by_cases hpref : baseUrl.isPrefixOf (resolveHref baseUrl href) = true
          · by_cases hin : resolveHref baseUrl href ∈ acc
            · simp only [discoverLinksAux, if_neg hemp, if_pos hpref, if_pos hin]
              rw [if_neg (by simp [hban])]
              obtain ⟨hnd, hmem⟩ := ih acc hacc
              refine ⟨hnd, fun u hu => ?_⟩
              rcases hmem u hu with h | ⟨hp, h2, hh2, rest'⟩
              · exact Or.inl h
              · exact Or.inr ⟨hp, h2, List.mem_cons_of_mem _ hh2, rest'⟩
            · have hacc' : (acc ++ [resolveHref baseUrl href]).Nodup := by
                rw [List.nodup_append]
                exact ⟨hacc, List.nodup_singleton _,
                  fun u hu hu' => hin ((List.mem_singleton.mp hu') ▸ hu)⟩
              simp only [discoverLinksAux, if_neg hemp, if_pos hpref, if_neg hin]
              rw [if_neg (by simp [hban])]
              obtain ⟨hnd, hmem⟩ := ih (acc ++ [resolveHref baseUrl href]) hacc'
              refine ⟨hnd, fun u hu => ?_⟩
              rcases hmem u hu with h | ⟨hp, h2, hh2, rest'⟩
              · rcases List.mem_append.mp h with h | h
                · exact Or.inl h
                · refine Or.inr ⟨?_, href, List.mem_cons_self _ _, hemp,
                    Bool.not_eq_true _ ▸ hban, List.mem_singleton.mp h⟩
                  rw [List.mem_singleton.mp h]
                  exact hpref
              · exact Or.inr ⟨hp, h2, List.mem_cons_of_mem _ hh2, rest'⟩
          · simp only [discoverLinksAux, if_neg hemp, if_neg hpref]
            rw [if_neg (by simp [hban])]
            obtain ⟨hnd, hmem⟩ := ih acc hacc
            refine ⟨hnd, fun u hu => ?_⟩
            rcases hmem u hu with h | ⟨hp, h2, hh2, rest'⟩
            · exact Or.inl h
            · exact Or.inr ⟨hp, h2, List.mem_cons_of_mem _ hh2, rest'⟩

/-- C3 — the discovered link set contains only URLs with the base URL as a
plain string prefix, each derived from an anchor href that is present,
non-empty and not fragment/script/mail/tel-prefixed; each distinct resolved
URL appears at most once; and (for an http(s) base URL) no member itself
starts with one of the banned markers. -/
theorem discoverLinks_properties (baseUrl : List Char)
    (anchors : List (Option (List Char))) :
    (discoverLinks baseUrl anchors).Nodup ∧
    (∀ u ∈ discoverLinks baseUrl anchors, baseUrl.isPrefixOf u = true) ∧
    (∀ u ∈ discoverLinks baseUrl anchors,
      ∃ href, some href ∈ anchors ∧ href ≠ [] ∧
        bannedStarts.any (fun b => b.isPrefixOf href) = false ∧
        u = resolveHref baseUrl href) ∧
    ("http".toList.isPrefixOf baseUrl = true →
      ∀ u ∈ discoverLinks baseUrl anchors,
        ∀ b ∈ bannedStarts, b.isPrefixOf u = false) := by
  obtain ⟨hnd, hmem⟩ := discoverLinksAux_spec baseUrl anchors [] (List.nodup_nil)
  have hgood : ∀ u ∈ discoverLinks baseUrl anchors,
      baseUrl.isPrefixOf u = true ∧
        ∃ href, some href ∈ anchors ∧ href ≠ [] ∧
          bannedStarts.any (fun b => b.isPrefixOf href) = false ∧
          u = resolveHref baseUrl href := by
    intro u hu
    rcases hmem u hu with h | h
    · exact absurd h (List.not_mem_nil u)
    · exact h
  refine ⟨hnd, fun u hu => (hgood u hu).1, fun u hu => (hgood u hu).2, ?_⟩
  intro hhttp u hu b hb
  have hbase := (hgood u hu).1
  have h1 : "http".toList <+: baseUrl := List.isPrefixOf_iff_prefix.mp hhttp
  have h2 : baseUrl <+: u := List.isPrefixOf_iff_prefix.mp hbase
  obtain ⟨v, hv⟩ := h1.trans h2
  by_contra hbt
  have hbu : b <+: u :=
    List.isPrefixOf_iff_prefix.mp (Bool.not_eq_false _ ▸ hbt)
  obtain ⟨t, ht⟩ := hbu
  subst hv
  fin_cases hb <;>
    first
    | (injection ht with h1 h2; exact absurd h1 (by decide))

/-- C3 witness: a concrete seed page with a relative link, a fragment link,
an absolute in-domain link and a duplicate; the banned-marker conjunct is
instantiated at the resolved relative link. -/
theorem discoverLinks_properties_witness :
    ("#".toList).isPrefixOf "http://a/docs/x".toList = false :=
  (discoverLinks_properties "http://a/docs".toList
      [some "/x".toList, some "#frag".toList, some "http://a/docs/y".toList,
        some "/x".toList, none]).2.2.2 (by decide)
    "http://a/docs/x".toList (by decide) "#".toList (by decide)

/-! ### Crawl orchestration (`scrape_docs`, app.py lines 129-182) -/

/-- Observable events of one crawl job: a `get_page_content` call for a
URL, the success log line, the per-link error log line, and the politeness
sleep. -/
inductive ScrapeEvent where
  | fetchPage (url : List Char)
  | logSuccess (url : List Char)
  | logError (url : List Char)
  | sleep
  deriving DecidableEq

/-- Success branch of the per-link body (app.py lines 166-172): extract,
append the document only when its normalized content is non-empty (logging
the success), then sleep. -/
def processLinkOk (href : List Char) (soup : Soup) :
    Option Doc × List ScrapeEvent :=
  if (extract_content soup href).content = [] then
    (none, [ScrapeEvent.fetchPage href, ScrapeEvent.sleep])
  else
    (some (extract_content soup href),
      [ScrapeEvent.fetchPage href, ScrapeEvent.logSuccess href,
        ScrapeEvent.sleep])

/-- Outcome of `BeautifulSoup(page_content, ...)` for one link: parsing is
the throwing operation of the per-link `try` body; on an exception the
handler (app.py lines 174-175) logs the failure and the loop continues,
skipping the sleep that follows inside the `try`. -/
def processLinkParsed (href : List Char) :
    Except (List Char) Soup → Option Doc × List ScrapeEvent
  | Except.error _ =>
    (none, [ScrapeEvent.fetchPage href, ScrapeEvent.logError href])
  | Except.ok soup => processLinkOk href soup

/-- Per-link body once `get_page_content` returned: an empty result is
falsy in `if page_content:`, so extraction is skipped and only the sleep
runs. -/
def processLinkContent (parse : List Char → Except (List Char) Soup)
    (href content : List Char) : Option Doc × List ScrapeEvent :=
  if content = [] then (none, [ScrapeEvent.fetchPage href, ScrapeEvent.sleep])
  else processLinkParsed href (parse content)

/-- Per-link body of the crawl loop (app.py lines 162-175), including its
exception containment.  `pageContent` models `self.get_page_content`
(which never raises); the `fetchPage` event marks that call. -/
def processLink (pageContent : List Char → Option (List Char))
    (parse : List Char → Except (List Char) Soup) (href : List Char) :
    Option Doc × List ScrapeEvent :=
  match pageContent href with
  | none => (none, [ScrapeEvent.fetchPage href, ScrapeEvent.sleep])
  | some content => processLinkContent parse href content

/-- Crawl loop over the discovered links (app.py lines 156-175), carrying
the `processed_urls` set. -/
def scrapeLoop (pageContent : List Char → Option (List Char))
    (parse : List Char → Except (List Char) Soup) :
    List (List Char) → List (List Char) → List Doc × List ScrapeEvent
  | _, [] => ([], [])
  | processed, href :: rest =>
    if href ∈ processed then scrapeLoop pageContent parse processed rest
    else
      ((match (processLink pageContent parse href).1 with
        | some d =>
          d :: (scrapeLoop pageContent parse (processed ++ [href]) rest).1
        | none => (scrapeLoop pageContent parse (processed ++ [href]) rest).1),
        (processLink pageContent parse href).2
          ++ (scrapeLoop pageContent parse (processed ++ [href]) rest).2)

/-- Successful-seed-parse branch of `scrape_docs`: discover the links of
the seed page and run the loop; the trace starts with the seed fetch. -/
def scrapeSeedParsed (pageContent : List Char → Option (List Char))
    (parse : List Char → Except (List Char) Soup) (base_url : List Char) :
    Except (List Char) Soup → List Doc × List ScrapeEvent
  | Except.error _ => ([], [ScrapeEvent.fetchPage base_url])
  | Except.ok soup =>
    ((scrapeLoop pageContent parse [] (discoverLinks base_url soup.anchors)).1,
      ScrapeEvent.fetchPage base_url ::
        (scrapeLoop pageContent parse []
          (discoverLinks base_url soup.anchors)).2)

/-- Embedding of `DocumentScraper.scrape_docs` (app.py lines 129-182): a
failed or empty seed fetch returns the empty accumulator (app.py lines
137-139); a seed parse exception is caught by the top-level handler and
also yields `[]`. -/
def scrape_docs (pageContent : List Char → Option (List Char))
    (parse : List Char → Except (List Char) Soup) (base_url : List Char) :
    List Doc × List ScrapeEvent :=
  match pageContent base_url with
  | none => ([], [ScrapeEvent.fetchPage base_url])
  | some content =>
    if content = [] then ([], [ScrapeEvent.fetchPage base_url])
    else scrapeSeedParsed pageContent parse base_url (parse content)

/-- URLs passed to `get_page_content`, in trace order. -/
def fetchedUrls (evs : List ScrapeEvent) : List (List Char) :=
  evs.filterMap (fun e =>
    match e with
    | ScrapeEvent.fetchPage u => some u
    | _ => none)

theorem processLink_of_none {pageContent : List Char → Option (List Char)}
    (parse : List Char → Except (List Char) Soup) {href : List Char}
    (h : pageContent href = none) :
    processLink pageContent parse href
      = (none, [ScrapeEvent.fetchPage href, ScrapeEvent.sleep]) := by
  unfold processLink
  rw [h]

theorem processLink_of_some {pageContent : List Char → Option (List Char)}
    (parse : List Char → Except (List Char) Soup) {href c : List Char}
    (h : pageContent href = some c) :
    processLink pageContent parse href = processLinkContent parse href c := by
  unfold processLink
  rw [h]

theorem processLink_fetched (pageContent : List Char → Option (List Char))
    (parse : List Char → Except (List Char) Soup) (href : List Char) :
    fetchedUrls (processLink pageContent parse href).2 = [href] := by
  rcases hpc : pageContent href with _ | content
  · rw [processLink_of_none parse hpc]
    rfl
  · rw [processLink_of_some parse hpc]
    unfold processLinkContent
    by_cases hc : content = []
    · rw [if_pos hc]
      rfl
    · rw [if_neg hc]
      rcases hp : parse content with msg | soup
      · rfl
      · show fetchedUrls (processLinkOk href soup).2 = [href]
        unfold processLinkOk
        by_cases he : (extract_content soup href).content = []
        · rw [if_pos he]
          rfl
        · rw [if_neg he]
          rfl

theorem processLink_some_content (pageContent : List Char → Option (List Char))
    (parse : List Char → Except (List Char) Soup) (href : List Char) (d : Doc)
    (h : (processLink pageContent parse href).1 = some d) : d.content ≠ [] := by
  rcases hpc : pageContent href with _ | content
  · rw [processLink_of_none parse hpc] at h
    simp at h
  · rw [processLink_of_some parse hpc] at h
    unfold processLinkContent at h
    by_cases hc : content = []
    · rw [if_pos hc] at h
      simp at h
    · rw [if_neg hc] at h
      rcases hp : parse content with msg | soup
      · rw [hp] at h
        simp [processLinkParsed] at h
      · rw [hp] at h
        have h2 : (processLinkOk href soup).1 = some d := h
        unfold processLinkOk at h2
        by_cases he : (extract_content soup href).content = []
        · rw [if_pos he] at h2
          simp at h2
        · rw [if_neg he] at h2
          simp only [Option.some.injEq] at h2
          rw [← h2]
          exact he

theorem scrapeLoop_fetch_once (pageContent : List Char → Option (List Char))
    (parse : List Char → Except (List Char) Soup) :
    ∀ (links processed : List (List Char)),
      (fetchedUrls (scrapeLoop pageContent parse processed links).2).Nodup ∧
      ∀ u ∈ fetchedUrls (scrapeLoop pageContent parse processed links).2,
        u ∉ processed := by
  intro links
  induction links with
  | nil =>
    intro processed
    exact ⟨List.nodup_nil, by simp [scrapeLoop, fetchedUrls]⟩
  | cons href rest ih =>
    intro processed
    by_cases hin : href ∈ processed
    · simpa [scrapeLoop, hin] using ih processed
    · obtain ⟨hnd, hmem⟩ := ih (processed ++ [href])
      have htrace : (scrapeLoop pageContent parse processed (href :: rest)).2
          = (processLink pageContent parse href).2
              ++ (scrapeLoop pageContent parse (processed ++ [href]) rest).2 := by
        simp [scrapeLoop, hin]
      constructor
      · rw [htrace]
        unfold fetchedUrls
        rw [List.filterMap_append]
        have h1 := processLink_fetched pageContent parse href
        unfold fetchedUrls at h1
        rw [h1, List.nodup_append]
        refine ⟨List.nodup_singleton _, hnd, ?_⟩
        intro u hu hu'
        have := hmem u hu'
        rw [List.mem_singleton.mp hu] at this
        exact this (List.mem_append.mpr (Or.inr (List.mem_singleton.mpr rfl)))
      · intro u hu
        rw [htrace] at hu
        unfold fetchedUrls at hu
        rw [List.filterMap_append] at hu
        rcases List.mem_append.mp hu with h | h
        · have h1 := processLink_fetched pageContent parse href
          unfold fetchedUrls at h1
          rw [h1] at h
          rw [List.mem_singleton.mp h]
          exact hin
        · intro hup
          exact hmem u h (List.mem_append.mpr (Or.inl hup))

theorem scrapeLoop_decompose (pageContent : List Char → Option (List Char))
    (parse : List Char → Except (List Char) Soup) :
    ∀ (links processed : List (List Char)), links.Nodup →
      (∀ l ∈ links, l ∉ processed) →
      scrapeLoop pageContent parse processed links
        = (links.filterMap (fun l => (processLink pageContent parse l).1),
            links.flatMap (fun l => (processLink pageContent parse l).2)) := by
  intro links
  induction links with
  | nil =>
    intro processed _ _
    rfl
  | cons href rest ih =>
    intro processed hnd hout
    have hin : href ∉ processed := hout href (List.mem_cons_self _ _)
    have hrest : ∀ l ∈ rest, l ∉ processed ++ [href] := by
      intro l hl hmem
      rcases List.mem_append.mp hmem with h | h
      · exact hout l (List.mem_cons_of_mem _ hl) h
      · rw [List.mem_singleton.mp h] at hl
        exact (List.nodup_cons.mp hnd).1 hl
    have hr := ih (processed ++ [href]) (List.nodup_cons.mp hnd).2 hrest
    simp only [scrapeLoop, if_neg hin, hr, List.filterMap_cons, List.flatMap_cons]
    cases (processLink pageContent parse href).1 with
    | none => rfl
    | some d => rfl

theorem scrapeLoop_content_nonempty (pageContent : List Char → Option (List Char))
    (parse : List Char → Except (List Char) Soup) :
    ∀ (links processed : List (List Char)),
      ∀ d ∈ (scrapeLoop pageContent parse processed links).1, d.content ≠ [] := by
  intro links
  induction links with
  | nil =>
    intro processed d hd
    simp [scrapeLoop] at hd
  | cons href rest ih =>
    intro processed d hd
    by_cases hin : href ∈ processed
    · rw [show scrapeLoop pageContent parse processed (href :: rest)
          = scrapeLoop pageContent parse processed rest by
        simp [scrapeLoop, hin]] at hd
      exact ih processed d hd
    · have hdocs : (scrapeLoop pageContent parse processed (href :: rest)).1
          = (match (processLink pageContent parse href).1 with
            | some d =>
              d :: (scrapeLoop pageContent parse (processed ++ [href]) rest).1
            | none =>
              (scrapeLoop pageContent parse (processed ++ [href]) rest).1) := by
        simp [scrapeLoop, hin]
      rw [hdocs] at hd
      cases hpl : (processLink pageContent parse href).1 with
      | none =>
        rw [hpl] at hd
        exact ih (processed ++ [href]) d hd
      | some d0 =>
        rw [hpl] at hd
        rcases List.mem_cons.mp hd with h | h
        · rw [h]
          exact processLink_some_content pageContent parse href d0 hpl
        · exact ih (processed ++ [href]) d h

theorem scrape_docs_of_none {pageContent : List Char → Option (List Char)}
    (parse : List Char → Except (List Char) Soup) {base_url : List Char}
    (h : pageContent base_url = none) :
    scrape_docs pageContent parse base_url
      = ([], [ScrapeEvent.fetchPage base_url]) := by
  unfold scrape_docs
  rw [h]

theorem scrape_docs_of_some {pageContent : List Char → Option (List Char)}
    (parse : List Char → Except (List Char) Soup) {base_url c : List Char}
    (h : pageContent base_url = some c) :
    scrape_docs pageContent parse base_url
      = (if c = [] then ([], [ScrapeEvent.fetchPage base_url])
         else scrapeSeedParsed pageContent parse base_url (parse c)) := by
  unfold scrape_docs
  rw [h]

/-- C2 (amended) — one crawl job fetches each discovered link at most once;
every returned document has non-empty normalized content; a failed or empty
seed fetch and a top-level (seed parse) exception both yield the empty
result instead of raising; on a successful seed parse the job decomposes
into independent per-link processing of the discovered link set, and a link
whose processing raises is logged and contributes nothing, the remaining
links still being processed.  (The original claim's "the seed page is never
included as a Document" is dropped: see the counterexample.) -/
theorem scrape_docs_contract (pageContent : List Char → Option (List Char))
    (parse : List Char → Except (List Char) Soup) (base_url : List Char) :
    ((fetchedUrls (scrape_docs pageContent parse base_url).2).drop 1).Nodup ∧
    (∀ d ∈ (scrape_docs pageContent parse base_url).1, d.content ≠ []) ∧
    (pageContent base_url = none ∨ pageContent base_url = some [] →
      scrape_docs pageContent parse base_url
        = ([], [ScrapeEvent.fetchPage base_url])) ∧
    (∀ c msg, pageContent base_url = some c → c ≠ [] →
      parse c = Except.error msg →
      scrape_docs pageContent parse base_url
        = ([], [ScrapeEvent.fetchPage base_url])) ∧
    (∀ c soup, pageContent base_url = some c → c ≠ [] →
      parse c = Except.ok soup →
      (scrape_docs pageContent parse base_url).1
          = (discoverLinks base_url soup.anchors).filterMap
              (fun l => (processLink pageContent parse l).1) ∧
        (scrape_docs pageContent parse base_url).2
          = ScrapeEvent.fetchPage base_url ::
              (discoverLinks base_url soup.anchors).flatMap
                (fun l => (processLink pageContent parse l).2)) ∧
    (∀ l c msg, pageContent l = some c → c ≠ [] → parse c = Except.error msg →
      processLink pageContent parse l
        = (none, [ScrapeEvent.fetchPage l, ScrapeEvent.logError l])) := by
  refine ⟨?_, ?_, ?_, ?_, ?_, ?_⟩
  · rcases hpc : pageContent base_url with _ | content
    · rw [scrape_docs_of_none parse hpc]
      simp [fetchedUrls]
    · rw [scrape_docs_of_some parse hpc]
      by_cases hc : content = []
      · rw [if_pos hc]
        simp [fetchedUrls]
      · rw [if_neg hc]
        rcases hp : parse content with msg | soup
        · simp [scrapeSeedParsed, fetchedUrls]
        · have := (scrapeLoop_fetch_once pageContent parse
            (discoverLinks base_url soup.anchors) []).1
          simpa [scrapeSeedParsed, fetchedUrls] using this
  · rcases hpc : pageContent base_url with _ | content
    · rw [scrape_docs_of_none parse hpc]
      simp
    · rw [scrape_docs_of_some parse hpc]
      by_cases hc : content = []
      · rw [if_pos hc]
        simp
      · rw [if_neg hc]
        rcases hp : parse content with msg | soup
        · simp [scrapeSeedParsed]
        · intro d hd
          refine scrapeLoop_content_nonempty pageContent parse
            (discoverLinks base_url soup.anchors) [] d ?_
          simpa [scrapeSeedParsed] using hd
  · intro h
    rcases h with h | h
    · exact scrape_docs_of_none parse h
    · rw [scrape_docs_of_some parse h]
      rw [if_pos rfl]
  · intro c msg hpc hc hp
    rw [scrape_docs_of_some parse hpc, if_neg hc, hp]
    rfl
  · intro c soup hpc hc hp
    rw [scrape_docs_of_some parse hpc, if_neg hc, hp]
    have hnd := (discoverLinksAux_spec base_url soup.anchors [] List.nodup_nil).1
    have hdec := scrapeLoop_decompose pageContent parse
      (discoverLinks base_url soup.anchors) [] hnd (by simp)
    constructor
    · show (scrapeLoop pageContent parse []
          (discoverLinks base_url soup.anchors)).1 = _
      rw [hdec]
    · show ScrapeEvent.fetchPage base_url ::
          (scrapeLoop pageContent parse []
            (discoverLinks base_url soup.anchors)).2 = _
      rw [hdec]
  · intro l c msg hpc hc hp
    rw [processLink_of_some parse hpc]
    unfold processLinkContent
    rw [if_neg hc, hp]
    rfl

/-- Seed page that links to itself through the root-relative href "/". -/
def soupSelfLink : Soup :=
  { h1 := none, titleTag := none, pageTitleClass := none,
    findMain := none, findArticle := none, findContentClass := none,
    findContentId := none, findDocClass := none,
    wholeRegion := { headerTexts := [], elemTexts := ["hello world".toList] },
    anchors := [some "/".toList] }

/-- C2 counterexample: with base URL "http://a/" and a seed page whose only
anchor is `href="/"`, the resolved link equals the base URL itself, so the
job re-fetches the seed and returns a document whose `url` IS the seed URL —
refuting "the seed page itself is never included as a Document". -/
theorem scrape_docs_seed_counterexample :
    ((scrape_docs (fun _ => some "x".toList) (fun _ => Except.ok soupSelfLink)
        "http://a/".toList).1.map Doc.url) = ["http://a/".toList] ∧
      (scrape_docs (fun _ => some "x".toList) (fun _ => Except.ok soupSelfLink)
        "http://a/".toList).1 ≠ [] := by
  decide

/-- C2 witness: a failing seed fetch yields the empty result. -/
theorem scrape_docs_contract_witness :
    scrape_docs (fun _ => none) (fun _ => Except.error []) "http://b/".toList
      = ([], [ScrapeEvent.fetchPage "http://b/".toList]) :=
  (scrape_docs_contract (fun _ => none) (fun _ => Except.error [])
    "http://b/".toList).2.2.1 (Or.inl rfl)

/-! ### Query endpoint (app.py lines 508-622) -/

/-- CDP keyword filter from app.py lines 524-535. -/
def cdp_keywords : List (List Char) :=
  ["cdp".toList, "data".toList, "profile".toList, "segment".toList,
    "audience".toList, "integration".toList, "track".toList,
    "analytics".toList, "source".toList, "destination".toList]

/-- Embedding of `get_alternative_suggestions` (app.py lines 382-406). -/
def get_alternative_suggestions (cdp : List Char) : List (List Char) :=
  if cdp = "segment".toList then
    ["How to set up Segment tracking".toList,
      "Creating a new source in Segment".toList,
      "Segment data integration guide".toList]
  else if cdp = "mparticle".toList then
    ["Setting up mParticle SDK".toList,
      "Creating user profiles in mParticle".toList,
      "mParticle data mapping guide".toList]
  else if cdp = "lytics".toList then
    ["Building audiences in Lytics".toList,
      "Lytics campaign setup guide".toList,
      "Lytics data collection setup".toList]
  else if cdp = "zeotap".toList then
    ["Zeotap data integration guide".toList,
      "Setting up identity resolution".toList,
      "Creating segments in Zeotap".toList]
  else []

/-- Index lookup from app.py lines 551-558 (`index_map.get(cdp)`). -/
def indexMap (cdp : List Char) : Option (List Char) :=
  if cdp = "segment".toList then some "segment_docs".toList
  else if cdp = "mparticle".toList then some "mparticle_docs".toList
  else if cdp = "lytics".toList then some "lytics_docs".toList
  else if cdp = "zeotap".toList then some "zeotap_docs".toList
  else none

/-- Shapes of the `/query` handler's responses (app.py lines 508-610),
one constructor per `return jsonify(...)` site on the non-error paths. -/
inductive QueryResponse where
  | emptyQuery (suggestions : List (List Char))
  | offTopic (examples : List (List Char))
  | invalidCdp
  | notIndexed
  | noDocs
  | noHits (suggestions : List (List Char))
  | answered (response : FormattedAnswer)
      (relatedTopics : Option (List (List Char)))
  deriving DecidableEq

/-- Search phase of the handler (app.py lines 584-610): run
`search_documents`, format the top hit, and attach the titles of hits 2-4
when more than one hit came back.  The related-topic titles are read here
with a default; in Python `hit["_source"]["title"]` would raise on a
missing key — unreachable for documents produced by `extract_content`,
which always set a title. -/
def handleQuerySearch (search : List Char → List Char → List Hit)
    (indexName userQuery cdp : List Char) : QueryResponse × Bool :=
  match search indexName userQuery with
  | [] => (QueryResponse.noHits (get_alternative_suggestions cdp), true)
  | hit :: rest =>
    (QueryResponse.answered (format_search_response hit userQuery)
      (if rest = [] then none
       else some ((rest.take 3).map
         (fun h => h.source.title.getD "Relevant Documentation".toList))),
      true)

/-- Embedding of the `/query` handler (app.py lines 508-610), with the
engine state passed as oracles (`indexExists`, `docCount`, `search`); the
Bool of the result records whether `search_documents` was invoked while
serving the request. -/
def handleQuery (indexExists : List Char → Bool) (docCount : List Char → ℕ)
    (search : List Char → List Char → List Hit)
    (rawQuery rawCdp : List Char) : QueryResponse × Bool :=
  let user_query := pyStrip rawQuery
  let cdp := pyLower rawCdp
  if user_query = [] then
    (QueryResponse.emptyQuery (get_alternative_suggestions cdp), false)
  else if cdp_keywords.any (fun k => hasSub k (pyLower user_query)) = false then
    (QueryResponse.offTopic (get_alternative_suggestions cdp), false)
  else
    match indexMap cdp with
    | none => (QueryResponse.invalidCdp, false)
    | some indexName =>
      if indexExists indexName = false then (QueryResponse.notIndexed, false)
      else if docCount indexName = 0 then (QueryResponse.noDocs, false)
      else handleQuerySearch search indexName user_query cdp

/-- C7 — an empty (whitespace-only) query string makes the handler return
the clarification payload with the vendor suggestion list without invoking
the search engine; a query containing no CDP-domain keyword makes it return
the fixed off-topic payload, again without invoking the search engine. -/
theorem handleQuery_no_search (indexExists : List Char → Bool)
    (docCount : List Char → ℕ) (search : List Char → List Char → List Hit)
    (rawQuery rawCdp : List Char) :
    (pyStrip rawQuery = [] →
      handleQuery indexExists docCount search rawQuery rawCdp
        = (QueryResponse.emptyQuery
            (get_alternative_suggestions (pyLower rawCdp)), false)) ∧
    (pyStrip rawQuery ≠ [] →
      cdp_keywords.any (fun k => hasSub k (pyLower (pyStrip rawQuery))) = false →
      handleQuery indexExists docCount search rawQuery rawCdp
        = (QueryResponse.offTopic
            (get_alternative_suggestions (pyLower rawCdp)), false)) := by
  constructor
  · intro h
    simp only [handleQuery]
    rw [if_pos h]
  · intro h1 h2
    simp only [handleQuery]
    rw [if_neg h1, if_pos h2]

/-- C7 witness: a whitespace-only query and an off-topic query, both with
vendor "segment", produce the two payloads with the search flag `false`. -/
theorem handleQuery_no_search_witness :
    handleQuery (fun _ => true) (fun _ => 1) (fun _ _ => [])
        "   ".toList "segment".toList
      = (QueryResponse.emptyQuery
          (get_alternative_suggestions "segment".toList), false) ∧
    handleQuery (fun _ => true) (fun _ => 1) (fun _ _ => [])
        "hello there".toList "segment".toList
      = (QueryResponse.offTopic
          (get_alternative_suggestions "segment".toList), false) := by
  constructor
  · rw [(handleQuery_no_search (fun _ => true) (fun _ => 1) (fun _ _ => [])
      "   ".toList "segment".toList).1 (by decide)]
    decide
  · rw [(handleQuery_no_search (fun _ => true) (fun _ => 1) (fun _ _ => [])
      "hello there".toList "segment".toList).2 (by decide) (by decide)]
    decide

/-- C4 witness: evaluation of the title-selection theorem on the page with
no title candidates. -/
theorem extract_content_title_selection_witness :
    (extract_content soupStepPage "u".toList).title
      = amendedTitleChoice soupStepPage :=
  (extract_content_title_selection soupStepPage "u".toList).1

/-- C10 witness: evaluation of the steps bound on the single-step page. -/
theorem extract_content_steps_at_most_one_witness :
    (extract_content soupStepPage "u".toList).steps.length ≤ 1 :=
  (extract_content_steps_at_most_one soupStepPage "u".toList).1

end SupportChatbot
